import Mathlib

/-!
Verification of the eliza repository fragment: the settings loader
(`src/unnamed/part_000`, i.e. `settings.ts`) and the API-key middleware
(`src/packages/client-direct/src/middlewares/auth.ts`).

The TypeScript code is shallowly embedded: JavaScript objects used as
string-keyed dictionaries become association lists (`List (String × String)`),
`undefined`-able values become `Option`, and JavaScript truthiness on
`string | undefined` values (falsy exactly for `undefined` and `""`) is made
explicit.  Directories are lists of path segments, innermost segment first,
with `[]` standing for the file-system root.
-/

/-- A JavaScript object used as a string-keyed map of string values
(the shape of `process.env` and of the `Settings` interface). -/
abbrev Settings := List (String × String)

/-- The `NamespacedSettings` interface: namespace to inner settings object. -/
abbrev NamespacedSettings := List (String × Settings)

/-- A directory, as the list of its path segments, innermost first;
`[]` is the file-system root.  `path.dirname` is `List.tail`. -/
abbrev Dir := List String

/-- JavaScript truthiness for a `string | undefined` value: falsy exactly
when it is `undefined` or the empty string. -/
def jsFalsy (x : Option String) : Prop := x = none ∨ x = some ""

instance (x : Option String) : Decidable (jsFalsy x) := by
  unfold jsFalsy; infer_instance

/-- Property lookup on a JavaScript object (`obj[key]`): the value at the
first matching key, or `none` when absent. -/
def lookupKV {α : Type} : List (String × α) → String → Option α
  | [], _ => none
  | (k, v) :: rest, key => if k = key then some v else lookupKV rest key

/-- Property assignment on a JavaScript object (`obj[key] = v`): update the
existing key in place, preserving insertion order, or append a new one. -/
def setKVgo {α : Type} : List (String × α) → String → α → List (String × α)
  | [], key, v => [(key, v)]
  | (k, w) :: rest, key, v =>
    if k = key then (key, v) :: rest else (k, w) :: setKVgo rest key v

/-- The keys of an object, in insertion order. -/
def keysOf {α : Type} (m : List (String × α)) : List String := m.map Prod.fst

/-! ### The API-key gate (`auth.ts`) -/

/-- An inbound express request: the value of `req.headers["x-api-key"]`
(`none` when the header is absent; Node lowercases header names and joins
duplicates, so the value is a single optional string) together with the
rest of the request, which the middleware never touches. -/
structure Request where
  xApiKey : Option String
  otherHeaders : List (String × String)
  body : String
deriving DecidableEq

/-- What the middleware does with a request: send a response with a status
and a plain-text body (`res.status(n).send(body)`) without calling `next`,
or invoke the continuation `next` on the (unmodified) request. -/
inductive GateOutcome where
  | respond (status : Nat) (body : String)
  | next (req : Request)
deriving DecidableEq

/-- `authMiddleware` from `auth.ts`:
```
const apiKey = req.headers["x-api-key"];
if (!apiKey || apiKey !== process.env.API_KEY) {
    return res.status(401).send("Unauthorized");
}
next();
```
`envApiKey` is `process.env.API_KEY`, read at request time (`none` when the
variable is unset).  `!apiKey` is JavaScript falsiness; `!==` on
`string | undefined` values is `Option String` inequality. -/
def authMiddleware (envApiKey : Option String) (req : Request) : GateOutcome :=
  if jsFalsy req.xApiKey ∨ req.xApiKey ≠ envApiKey then
    GateOutcome.respond 401 "Unauthorized"
  else
    GateOutcome.next req

/-! ### Dotted-key splitting (`key.split(".")` / `rest.join(".")`) -/

/-- `String.split` with separator `"."` at the character-list level:
JavaScript `key.split(".")`, which never returns an empty array. -/
def splitDotAux : List Char → List (List Char)
  | [] => [[]]
  | c :: cs =>
    if c = '.' then [] :: splitDotAux cs
    else
      match splitDotAux cs with
      | [] => [[c]]
      | p :: ps => (c :: p) :: ps

/-- `Array.prototype.join(".")` at the character-list level. -/
def joinDotAux : List (List Char) → List Char
  | [] => []
  | [p] => p
  | p :: q :: ps => p ++ '.' :: joinDotAux (q :: ps)

/-- JavaScript `key.split(".")`. -/
def splitDot (s : String) : List String := (splitDotAux s.data).map String.mk

/-- JavaScript `parts.join(".")`. -/
def joinDot (l : List String) : String := String.mk (joinDotAux (l.map String.data))

/-- The string contains no `'.'` character. -/
def noDotStr (s : String) : Prop := '.' ∉ s.data

instance (s : String) : Decidable (noDotStr s) := by
  unfold noDotStr; infer_instance

/-! ### The settings loader (`settings.ts`) -/

/-- `findNearestEnvFile`'s upward walk:
```
while (currentDir !== path.parse(currentDir).root) {
    const envPath = path.join(currentDir, ".env");
    if (fs.existsSync(envPath)) return envPath;
    currentDir = path.dirname(currentDir);
}
const rootEnvPath = path.join(path.parse(currentDir).root, ".env");
return fs.existsSync(rootEnvPath) ? rootEnvPath : null;
```
`fsHasEnv d` is `fs.existsSync(path.join(d, ".env"))`.  Since the file name
is fixed (`.env`), the returned path `path.join(d, ".env")` is represented
by its containing directory `d`. -/
def findNearestEnvFileFrom (fsHasEnv : Dir → Bool) : Dir → Option Dir
  | [] => if fsHasEnv [] then some [] else none
  | seg :: parent =>
    if fsHasEnv (seg :: parent) then some (seg :: parent)
    else findNearestEnvFileFrom fsHasEnv parent

/-- `findNearestEnvFile(startDir = process.cwd())`: returns `null` at once in
a browser (`if (isBrowser()) return null`), otherwise walks upward. -/
def findNearestEnvFile (browser : Bool) (fsHasEnv : Dir → Bool) (startDir : Dir) :
    Option Dir :=
  if browser then none else findNearestEnvFileFrom fsHasEnv startDir

/-- `configureSettings(settings)`: `environmentSettings = { ...settings }` —
a shallow copy built by assigning every own enumerable entry in order.
Returns the new value of the module-level `environmentSettings`. -/
def configureSettings (s : Settings) : Settings :=
  s.foldl (fun acc kv => setKVgo acc kv.1 kv.2) []

/-- The file system: `files d` is the parsed key/value content of the file
`path.join(d, ".env")`, or `none` when that file does not exist.  (Lines of
the file that fail to parse are already absent from the parsed content.) -/
abbrev FileSys := Dir → Option (List (String × String))

/-- Modelled from the documented behaviour of the external `dotenv` library's
`config` call used at `settings.ts` line 132: a missing file is a non-fatal
error leaving `process.env` untouched; otherwise each parsed key is written
into `process.env` only if it is not already set (dotenv never overrides
existing environment variables). -/
def dotenvLoad (content : Option (List (String × String))) (env : Settings) : Settings :=
  match content with
  | none => env
  | some vars =>
    vars.foldl (fun e kv => if (lookupKV e kv.1).isSome then e else e ++ [(kv.1, kv.2)]) env

/-- One iteration of the loop in `parseNamespacedSettings`:
```
if (!value) continue;
const [namespace, ...rest] = key.split(".");
if (!namespace || rest.length === 0) continue;
const settingKey = rest.join(".");
namespaced[namespace] = namespaced[namespace] || {};
namespaced[namespace][settingKey] = value;
```
(an existing inner object is always truthy, so `|| {}` keeps it). -/
def parseStep (namespaced : NamespacedSettings) (kv : String × String) :
    NamespacedSettings :=
  if kv.2 = "" then namespaced
  else
    match splitDot kv.1 with
    | [] => namespaced
    | nsp :: rest =>
      if nsp = "" then namespaced
      else if rest = [] then namespaced
      else
        setKVgo namespaced nsp
          (setKVgo ((lookupKV namespaced nsp).getD []) (joinDot rest) kv.2)

/-- `parseNamespacedSettings(env)`: fold the loop body over the entries of
`env` in insertion order, starting from the empty object. -/
def parseNamespacedSettings (env : Settings) : NamespacedSettings :=
  env.foldl parseStep []

/-- JSON string escaping as far as the values at hand need it (quote and
backslash); the loader never reads these serialized strings back, so only
determinism of the encoding matters to the properties proved here. -/
def jsonEscape (s : String) : String :=
  s.data.foldl
    (fun acc c =>
      if c = '\\' then acc ++ "\\\\"
      else if c = '"' then acc ++ "\\\""
      else acc.push c) ""

/-- `JSON.stringify` of a flat settings object, in insertion order. -/
def jsonStringifyObj (m : Settings) : String :=
  "\x7b" ++
    String.intercalate ","
      (m.map (fun kv => "\"" ++ jsonEscape kv.1 ++ "\":\"" ++ jsonEscape kv.2 ++ "\"")) ++
    "\x7d"

/-- The reserved backward-compatibility key `` `__namespaced_${namespace}` ``. -/
def namespacedKey (n : String) : String := "__namespaced_" ++ n

/-- The write-back loop of `loadEnvConfig`:
```
Object.entries(namespacedSettings).forEach(([namespace, settings]) => {
    process.env[`__namespaced_${namespace}`] = JSON.stringify(settings);
});
``` -/
def applyNamespacedWrites (nsl : NamespacedSettings) (env : Settings) : Settings :=
  nsl.foldl (fun e p => setKVgo e (namespacedKey p.1) (jsonStringifyObj p.2)) env

/-- The file content `config` reads: `config(envPath ? { path: envPath } : {})`
loads the found file, and with no `path` option dotenv defaults to
`.env` in the current working directory. -/
def envFileContent (files : FileSys) (cwd : Dir) : Option (List (String × String)) :=
  match findNearestEnvFile false (fun d => (files d).isSome) cwd with
  | some d => files d
  | none => files cwd

/-- `loadEnvConfig()` from `settings.ts`.  In a browser it returns the
module-level `environmentSettings`; in Node it locates the nearest `.env`
file, loads it into `process.env` via dotenv, derives the namespaced
settings, writes each group back under its `__namespaced_` key, and returns
`process.env`.  `env` is `process.env` before the call; the returned map is
`process.env` after it (the function's return value is `process.env`). -/
def loadEnvConfig (browser : Bool) (environmentSettings : Settings)
    (files : FileSys) (cwd : Dir) (env : Settings) : Settings :=
  if browser then environmentSettings
  else
    let env1 := dotenvLoad (envFileContent files cwd) env
    applyNamespacedWrites (parseNamespacedSettings env1) env1

/-- `getEnvVariable(key, defaultValue?)`:
```
if (isBrowser()) return environmentSettings[key] || defaultValue;
return process.env[key] || defaultValue;
```
`x || y` on `string | undefined` yields `y` when `x` is falsy. -/
def getEnvVariable (browser : Bool) (environmentSettings : Settings) (env : Settings)
    (key : String) (defaultValue : Option String) : Option String :=
  if browser then
    if jsFalsy (lookupKV environmentSettings key) then defaultValue
    else lookupKV environmentSettings key
  else
    if jsFalsy (lookupKV env key) then defaultValue
    else lookupKV env key

/-- `hasEnvVariable(key)`: `key in environmentSettings` / `key in process.env`. -/
def hasEnvVariable (browser : Bool) (environmentSettings : Settings) (env : Settings)
    (key : String) : Bool :=
  if browser then (lookupKV environmentSettings key).isSome
  else (lookupKV env key).isSome

/-! ### Specification-side helpers (statements of the claims) -/

/-- The chain of directories from a starting directory up to and including
the root, deepest first. -/
def ancestorChain : Dir → List Dir
  | [] => [[]]
  | seg :: parent => (seg :: parent) :: ancestorChain parent

/-- Reading of a key per the spec's wording for namespacing: the text before
the first dot and the remaining text (further dots preserved); `none` when
the key contains no dot. -/
def dotSplitSpec (key : String) : Option (String × String) :=
  match splitDot key with
  | [] => none
  | [_] => none
  | nsp :: rest => some (nsp, joinDot rest)

/-- A file system with no `.env` file anywhere. -/
def noFiles : FileSys := fun _ => none

/-! ### Association-list lemmas -/

@[simp] theorem keysOf_nil {α : Type} : keysOf ([] : List (String × α)) = [] := rfl

@[simp] theorem keysOf_cons {α : Type} (kv : String × α) (m : List (String × α)) :
    keysOf (kv :: m) = kv.1 :: keysOf m := rfl

@[simp] theorem keysOf_append {α : Type} (m m' : List (String × α)) :
    keysOf (m ++ m') = keysOf m ++ keysOf m' := by
  simp [keysOf]

@[simp] theorem lookupKV_nil {α : Type} (key : String) :
    lookupKV ([] : List (String × α)) key = none := rfl

theorem lookupKV_cons_self {α : Type} (k : String) (v : α) (rest : List (String × α)) :
    lookupKV ((k, v) :: rest) k = some v := by
  simp [lookupKV]

theorem lookupKV_cons_ne {α : Type} (k1 key : String) (v : α) (rest : List (String × α))
    (h : k1 ≠ key) : lookupKV ((k1, v) :: rest) key = lookupKV rest key := by
  simp [lookupKV, h]

@[simp] theorem setKVgo_nil {α : Type} (k : String) (v : α) :
    setKVgo ([] : List (String × α)) k v = [(k, v)] := rfl

theorem setKVgo_cons_self {α : Type} (k : String) (w v : α) (rest : List (String × α)) :
    setKVgo ((k, w) :: rest) k v = (k, v) :: rest := by
  simp [setKVgo]

theorem setKVgo_cons_ne {α : Type} (k1 k : String) (w v : α) (rest : List (String × α))
    (h : k1 ≠ k) : setKVgo ((k1, w) :: rest) k v = (k1, w) :: setKVgo rest k v := by
  simp [setKVgo, h]

theorem lookupKV_setKVgo_self {α : Type} (m : List (String × α)) (k : String) (v : α) :
    lookupKV (setKVgo m k v) k = some v := by
  induction m with
  | nil => simp [lookupKV]
  | cons kv rest ih =>
    obtain ⟨k1, w⟩ := kv
    by_cases h : k1 = k
    · subst h; rw [setKVgo_cons_self, lookupKV_cons_self]
    · rw [setKVgo_cons_ne _ _ _ _ _ h, lookupKV_cons_ne _ _ _ _ h, ih]

theorem lookupKV_setKVgo_ne {α : Type} (m : List (String × α)) (k k' : String) (v : α)
    (h : k' ≠ k) : lookupKV (setKVgo m k v) k' = lookupKV m k' := by
  induction m with
  | nil => simp [lookupKV, Ne.symm h]
  | cons kv rest ih =>
    obtain ⟨k1, w⟩ := kv
    by_cases h1 : k1 = k
    · subst h1
      rw [setKVgo_cons_self, lookupKV_cons_ne _ _ _ _ (Ne.symm h),
        lookupKV_cons_ne _ _ _ _ (Ne.symm h)]
    · rw [setKVgo_cons_ne _ _ _ _ _ h1]
      by_cases h2 : k1 = k'
      · subst h2; rw [lookupKV_cons_self, lookupKV_cons_self]
      · rw [lookupKV_cons_ne _ _ _ _ h2, lookupKV_cons_ne _ _ _ _ h2, ih]

theorem setKVgo_self_eq {α : Type} (m : List (String × α)) (k : String) (v : α)
    (h : lookupKV m k = some v) : setKVgo m k v = m := by
  induction m with
  | nil => simp at h
  | cons kv rest ih =>
    obtain ⟨k1, w⟩ := kv
    by_cases h1 : k1 = k
    · subst h1
      rw [lookupKV_cons_self, Option.some.injEq] at h
      rw [setKVgo_cons_self, h]
    · rw [lookupKV_cons_ne _ _ _ _ h1] at h
      rw [setKVgo_cons_ne _ _ _ _ _ h1, ih h]

theorem lookupKV_isSome_setKVgo {α : Type} (m : List (String × α)) (k k' : String) (v : α)
    (h : (lookupKV m k').isSome = true) : (lookupKV (setKVgo m k v) k').isSome = true := by
  by_cases hk : k' = k
  · subst hk; simp [lookupKV_setKVgo_self]
  · rwa [lookupKV_setKVgo_ne m k k' v hk]

theorem mem_keysOf_setKVgo {α : Type} (m : List (String × α)) (k : String) (v : α)
    (a : String) (h : a ∈ keysOf (setKVgo m k v)) : a ∈ keysOf m ∨ a = k := by
  induction m with
  | nil => simpa using h
  | cons kv rest ih =>
    obtain ⟨k1, w⟩ := kv
    by_cases h1 : k1 = k
    · subst h1
      rw [setKVgo_cons_self] at h
      exact Or.inl h
    · rw [setKVgo_cons_ne _ _ _ _ _ h1] at h
      rcases List.mem_cons.mp (by simpa using h) with h' | h'
      · exact Or.inl (by simp [h'])
      · rcases ih h' with h'' | h''
        · exact Or.inl (by simp; tauto)
        · exact Or.inr h''

theorem nodup_keysOf_setKVgo {α : Type} (m : List (String × α)) (k : String) (v : α)
    (h : (keysOf m).Nodup) : (keysOf (setKVgo m k v)).Nodup := by
  induction m with
  | nil => simp
  | cons kv rest ih =>
    obtain ⟨k1, w⟩ := kv
    rw [keysOf_cons, List.nodup_cons] at h
    by_cases h1 : k1 = k
    · subst h1
      rw [setKVgo_cons_self]
      exact List.nodup_cons.mpr h
    · rw [setKVgo_cons_ne _ _ _ _ _ h1, keysOf_cons, List.nodup_cons]
      refine ⟨fun hmem => ?_, ih h.2⟩
      rcases mem_keysOf_setKVgo rest k v k1 hmem with h' | h'
      · exact h.1 h'
      · exact h1 h'

theorem lookupKV_eq_none_iff {α : Type} (m : List (String × α)) (k : String) :
    lookupKV m k = none ↔ k ∉ keysOf m := by
  induction m with
  | nil => simp
  | cons kv rest ih =>
    obtain ⟨k1, w⟩ := kv
    by_cases h1 : k1 = k
    · subst h1
      rw [lookupKV_cons_self]
      simp
    · rw [lookupKV_cons_ne _ _ _ _ h1, keysOf_cons, List.mem_cons, ih]
      constructor
      · rintro hnm (h' | h')
        · exact h1 h'.symm
        · exact hnm h'
      · intro h'
        exact fun hm => h' (Or.inr hm)

theorem lookupKV_mem_nodup {α : Type} (m : List (String × α)) (k : String) (v : α)
    (hnd : (keysOf m).Nodup) (h : (k, v) ∈ m) : lookupKV m k = some v := by
  induction m with
  | nil => simp at h
  | cons kv rest ih =>
    obtain ⟨k1, w⟩ := kv
    rw [keysOf_cons, List.nodup_cons] at hnd
    rcases List.mem_cons.mp h with h' | h'
    · rw [show k1 = k from congrArg Prod.fst h'.symm,
        show w = v from congrArg Prod.snd h'.symm, lookupKV_cons_self]
    · have hk : k1 ≠ k := by
        rintro rfl
        exact hnd.1 (List.mem_map.mpr ⟨(k1, v), h', rfl⟩)
      rw [lookupKV_cons_ne _ _ _ _ hk, ih hnd.2 h']

theorem setKVgo_of_not_mem {α : Type} (m : List (String × α)) (k : String) (v : α)
    (h : k ∉ keysOf m) : setKVgo m k v = m ++ [(k, v)] := by
  induction m with
  | nil => simp
  | cons kv rest ih =>
    obtain ⟨k1, w⟩ := kv
    rw [keysOf_cons, List.mem_cons] at h
    push_neg at h
    rw [setKVgo_cons_ne _ _ _ _ _ (fun h' => h.1 h'.symm), ih h.2, List.cons_append]

theorem lookupKV_append {α : Type} (m m' : List (String × α)) (k : String) :
    lookupKV (m ++ m') k =
      match lookupKV m k with
      | some v => some v
      | none => lookupKV m' k := by
  induction m with
  | nil => simp
  | cons kv rest ih =>
    obtain ⟨k1, w⟩ := kv
    by_cases h1 : k1 = k
    · subst h1
      rw [List.cons_append, lookupKV_cons_self, lookupKV_cons_self]
    · rw [List.cons_append, lookupKV_cons_ne _ _ _ _ h1, lookupKV_cons_ne _ _ _ _ h1, ih]

/-! ### Splitting and joining on dots -/

theorem splitDotAux_ne_nil (l : List Char) : splitDotAux l ≠ [] := by
  cases l with
  | nil => simp [splitDotAux]
  | cons c cs =>
    by_cases h : c = '.'
    · simp [splitDotAux, h]
    · simp only [splitDotAux, if_neg h]
      cases splitDotAux cs <;> simp

theorem joinDotAux_splitDotAux (l : List Char) : joinDotAux (splitDotAux l) = l := by
  induction l with
  | nil => simp [splitDotAux, joinDotAux]
  | cons c cs ih =>
    by_cases h : c = '.'
    · subst h
      rw [show splitDotAux ('.' :: cs) = [] :: splitDotAux cs by simp [splitDotAux]]
      obtain ⟨p, ps, hps⟩ := List.exists_cons_of_ne_nil (splitDotAux_ne_nil cs)
      rw [hps]
      rw [hps] at ih
      simpa [joinDotAux] using ih
    · simp only [splitDotAux, if_neg h]
      cases hps : splitDotAux cs with
      | nil => exact absurd hps (splitDotAux_ne_nil cs)
      | cons p ps =>
        rw [hps] at ih
        cases ps with
        | nil => simpa [joinDotAux] using ih
        | cons q qs => simpa [joinDotAux] using ih

theorem mem_splitDotAux_no_dot (l : List Char) (p : List Char) (h : p ∈ splitDotAux l) :
    '.' ∉ p := by
  induction l generalizing p with
  | nil =>
    simp [splitDotAux] at h
    simp [h]
  | cons c cs ih =>
    by_cases hc : c = '.'
    · subst hc
      rw [show splitDotAux ('.' :: cs) = [] :: splitDotAux cs by simp [splitDotAux]] at h
      rcases List.mem_cons.mp h with h' | h'
      · simp [h']
      · exact ih p h'
    · simp only [splitDotAux, if_neg hc] at h
      cases hps : splitDotAux cs with
      | nil => exact absurd hps (splitDotAux_ne_nil cs)
      | cons q qs =>
        rw [hps] at h
        rcases List.mem_cons.mp h with h' | h'
        · subst h'
          have hq : '.' ∉ q := ih q (hps ▸ List.mem_cons_self q qs)
          rw [List.mem_cons]
          push_neg
          exact ⟨fun h'' => hc h''.symm, hq⟩
        · exact ih p (hps ▸ List.mem_cons.mpr (Or.inr h'))

theorem splitDotAux_of_no_dot (l : List Char) (h : '.' ∉ l) : splitDotAux l = [l] := by
  induction l with
  | nil => simp [splitDotAux]
  | cons c cs ih =>
    rw [List.mem_cons] at h
    push_neg at h
    simp only [splitDotAux, if_neg (fun h' : c = '.' => h.1 h'.symm)]
    rw [ih h.2]

theorem splitDot_ne_nil (s : String) : splitDot s ≠ [] := by
  simp [splitDot, splitDotAux_ne_nil]

theorem joinDot_splitDot (s : String) : joinDot (splitDot s) = s := by
  apply String.ext
  simp only [joinDot, splitDot, List.map_map]
  have : (String.data ∘ String.mk) = id := by
    funext l; rfl
  rw [this, List.map_id]
  exact joinDotAux_splitDotAux s.data

theorem mem_splitDot_noDot (s : String) (p : String) (h : p ∈ splitDot s) : noDotStr p := by
  simp only [splitDot, List.mem_map] at h
  obtain ⟨l, hl, rfl⟩ := h
  exact mem_splitDotAux_no_dot s.data l hl

theorem splitDot_of_noDot (s : String) (h : noDotStr s) : splitDot s = [s] := by
  simp only [splitDot, splitDotAux_of_no_dot s.data h, List.map_cons, List.map_nil]

theorem joinDot_cons (a : String) (l : List String) (h : l ≠ []) :
    joinDot (a :: l) = a ++ "." ++ joinDot l := by
  apply String.ext
  obtain ⟨b, l', rfl⟩ := List.exists_cons_of_ne_nil h
  simp only [joinDot, List.map_cons, joinDotAux, String.data_append]
  simp

theorem noDotStr_append (a b : String) (ha : noDotStr a) (hb : noDotStr b) :
    noDotStr (a ++ b) := by
  unfold noDotStr at *
  rw [String.data_append, List.mem_append]
  tauto

theorem not_noDotStr_dotted (n k : String) : ¬ noDotStr (n ++ "." ++ k) := by
  unfold noDotStr
  rw [String.data_append, String.data_append]
  intro h
  rw [List.mem_append, List.mem_append] at h
  push_neg at h
  exact h.1.2 (by simp [show ("." : String).data = ['.'] from rfl])

theorem namespacedKey_noDot (n : String) (h : noDotStr n) : noDotStr (namespacedKey n) := by
  unfold namespacedKey
  exact noDotStr_append _ _ (by decide) h

theorem namespacedKey_inj (n n' : String) (h : namespacedKey n = namespacedKey n') :
    n = n' := by
  unfold namespacedKey at h
  apply String.ext
  have := congrArg String.data h
  rw [String.data_append, String.data_append] at this
  exact List.append_cancel_left this

theorem namespacedKey_ne_dotted (n m k : String) (hm : noDotStr m) :
    n ++ "." ++ k ≠ namespacedKey m := by
  intro h
  exact not_noDotStr_dotted n k (h ▸ namespacedKey_noDot m hm)

/-! ### The nearest-file walk equals a search of the ancestor chain -/

theorem findNearestEnvFileFrom_eq_find (fsHasEnv : Dir → Bool) (d : Dir) :
    findNearestEnvFileFrom fsHasEnv d = (ancestorChain d).find? fsHasEnv := by
  induction d with
  | nil =>
    by_cases h : fsHasEnv [] <;>
      simp [findNearestEnvFileFrom, ancestorChain, List.find?, h]
  | cons seg parent ih =>
    by_cases h : fsHasEnv (seg :: parent) <;>
      simp [findNearestEnvFileFrom, ancestorChain, List.find?, h, ih]

theorem self_mem_ancestorChain (d : Dir) : d ∈ ancestorChain d := by
  cases d <;> simp [ancestorChain]

/-! ### Claim theorems for the API-key gate -/

/-- C1 counterexample: a request whose `x-api-key` header is present and
exactly equal to the configured expected value (both the empty string) is
nevertheless rejected with 401, because `!apiKey` treats the empty header
value as missing; so the continuation is not invoked even though header and
expected value exactly match, contradicting the claimed "if and only if". -/
theorem authMiddleware_empty_key_counterexample :
    (Request.mk (some "") [] "payload").xApiKey = some "" ∧
    authMiddleware (some "") (Request.mk (some "") [] "payload") =
      GateOutcome.respond 401 "Unauthorized" := by
  constructor
  · rfl
  · rfl

/-- C1 (amended): the gate invokes the continuation on the unmodified
request exactly when the `x-api-key` header is present with a non-empty
value equal to the expected configured value; in every other case the
outcome is the fixed 401 plain-text response and the continuation is not
invoked. -/
theorem authMiddleware_gate (envApiKey : Option String) (req : Request) :
    (authMiddleware envApiKey req = GateOutcome.next req ↔
      ∃ v, req.xApiKey = some v ∧ v ≠ "" ∧ envApiKey = some v) ∧
    (authMiddleware envApiKey req = GateOutcome.next req ∨
      authMiddleware envApiKey req = GateOutcome.respond 401 "Unauthorized") := by
  constructor
  · unfold authMiddleware
    by_cases h : jsFalsy req.xApiKey ∨ req.xApiKey ≠ envApiKey
    · rw [if_pos h]
      constructor
      · intro h'; cases h'
      · rintro ⟨v, hv, hne, henv⟩
        exfalso
        rcases h with h | h
        · rcases h with h | h
          · rw [hv] at h; cases h
          · rw [hv] at h
            exact hne (Option.some.injEq .. ▸ h)
        · exact h (hv.trans henv.symm)
    · rw [if_neg h]
      push_neg at h
      obtain ⟨hfal, heq⟩ := h
      unfold jsFalsy at hfal
      push_neg at hfal
      constructor
      · intro _
        cases hx : req.xApiKey with
        | none => exact absurd hx hfal.1
        | some v =>
          refine ⟨v, rfl, fun hv => hfal.2 (by rw [hx, hv]), ?_⟩
          rw [← heq, hx]
      · exact fun _ => rfl
  · unfold authMiddleware
    by_cases h : jsFalsy req.xApiKey ∨ req.xApiKey ≠ envApiKey
    · rw [if_pos h]; right; rfl
    · rw [if_neg h]; left; rfl

/-- C9: the gate is total — on every request and every configuration it
either issues exactly the 401 "Unauthorized" response or invokes the
continuation on the unmodified request; the rejection is always that same
response. -/
theorem authMiddleware_total (envApiKey : Option String) (req : Request) :
    authMiddleware envApiKey req = GateOutcome.respond 401 "Unauthorized" ∨
    authMiddleware envApiKey req = GateOutcome.next req := by
  unfold authMiddleware
  by_cases h : jsFalsy req.xApiKey ∨ req.xApiKey ≠ envApiKey
  · rw [if_pos h]; left; rfl
  · rw [if_neg h]; right; rfl

/-- C10: when `process.env.API_KEY` is not configured, every request is
rejected with 401 and the continuation is never invoked — the gate fails
closed. -/
theorem authMiddleware_fails_closed (req : Request) :
    authMiddleware none req = GateOutcome.respond 401 "Unauthorized" := by
  unfold authMiddleware
  rw [if_pos]
  cases hx : req.xApiKey with
  | none => left; left; rfl
  | some v => right; simp

/-! ### Claim theorem for nearest-file discovery -/

/-- C2: in host context, nearest-file discovery returns the `.env` file of
the first directory on the chain from the starting directory up to and
including the root that has one — i.e. of the deepest such directory — and
`none` when no directory on that chain has one.  (`List.find?` returns the
first hit in the deepest-first chain and `none` when there is no hit.) -/
theorem findNearestEnvFile_deepest (fsHasEnv : Dir → Bool) (startDir : Dir) :
    findNearestEnvFile false fsHasEnv startDir =
      (ancestorChain startDir).find? fsHasEnv := by
  unfold findNearestEnvFile
  rw [if_neg (by simp)]
  exact findNearestEnvFileFrom_eq_find fsHasEnv startDir

/-! ### Claim theorems for point lookups -/

/-- C3 counterexample: with the host environment holding `K` with the
stored value `""` (a present key), `get("K", "fallback")` returns
`"fallback"` rather than the stored value, because `||` treats the empty
string as absent; the claim's "returns the stored value whenever the key is
present" fails. -/
theorem getEnvVariable_present_empty_counterexample :
    lookupKV [("K", "")] "K" = some "" ∧
    getEnvVariable false [] [("K", "")] "K" (some "fallback") = some "fallback" := by
  constructor
  · rfl
  · rfl

/-- C3 (amended): `get` returns the stored value whenever the key is present
with a non-empty value; it returns the supplied default when the key is
absent or its stored value is the empty string (and hence `none` when no
default was supplied); `has` returns true exactly when the key is present —
in particular `get("MISSING", "fallback") = "fallback"`, `get("MISSING")`
is undefined and `has("MISSING")` is false. -/
theorem getEnvVariable_hasEnvVariable_correct (browser : Bool)
    (environmentSettings env : Settings) (key : String) (defaultValue : Option String) :
    (∀ v, lookupKV (if browser then environmentSettings else env) key = some v →
      v ≠ "" →
      getEnvVariable browser environmentSettings env key defaultValue = some v) ∧
    (lookupKV (if browser then environmentSettings else env) key = none →
      getEnvVariable browser environmentSettings env key defaultValue = defaultValue) ∧
    (lookupKV (if browser then environmentSettings else env) key = some "" →
      getEnvVariable browser environmentSettings env key defaultValue = defaultValue) ∧
    (hasEnvVariable browser environmentSettings env key = true ↔
      (lookupKV (if browser then environmentSettings else env) key).isSome = true) := by
  cases browser <;>
    simp only [if_true, if_false, Bool.false_eq_true] <;>
    refine ⟨fun v hv hne => ?_, fun hnone => ?_, fun hemp => ?_, ?_⟩ <;>
    simp [getEnvVariable, hasEnvVariable, jsFalsy] <;>
    first
      | (intro h; simp [*] at *)
      | simp [*]

/-! ### Characterizing `parseNamespacedSettings` -/

/-- What one entry of the flat settings contributes to the namespaced map:
`some (namespace, settingKey, value)` for a qualifying entry, `none` for an
entry the loop skips. -/
def entryNS (kv : String × String) : Option (String × String × String) :=
  if kv.2 = "" then none
  else
    match splitDot kv.1 with
    | [] => none
    | nsp :: rest =>
      if nsp = "" then none
      else if rest = [] then none
      else some (nsp, joinDot rest, kv.2)

theorem parseStep_eq (m : NamespacedSettings) (kv : String × String) :
    parseStep m kv =
      match entryNS kv with
      | none => m
      | some (n, s, v) => setKVgo m n (setKVgo ((lookupKV m n).getD []) s v) := by
  unfold parseStep entryNS
  by_cases h2 : kv.2 = ""
  · simp [h2]
  · simp only [if_neg h2]
    cases hsp : splitDot kv.1 with
    | nil => simp
    | cons nsp rest =>
      by_cases hn : nsp = ""
      · simp [hn]
      · by_cases hr : rest = [] <;> simp [hn, hr]

/-- Lookup in the inner object of a namespace (`(namespaced[ns] || {})[sub]`). -/
def innerLookup (m : NamespacedSettings) (ns sub : String) : Option String :=
  lookupKV ((lookupKV m ns).getD []) sub

theorem innerLookup_parseStep (m : NamespacedSettings) (kv : String × String)
    (ns sub : String) :
    innerLookup (parseStep m kv) ns sub =
      match entryNS kv with
      | some (n, s, v) =>
        if n = ns ∧ s = sub then some v else innerLookup m ns sub
      | none => innerLookup m ns sub := by
  rw [parseStep_eq]
  cases he : entryNS kv with
  | none => rfl
  | some t =>
    obtain ⟨n, s, v⟩ := t
    by_cases hn : n = ns
    · subst hn
      unfold innerLookup
      rw [lookupKV_setKVgo_self]
      by_cases hs : s = sub
      · subst hs
        simp [lookupKV_setKVgo_self]
      · simp only [Option.getD_some]
        rw [lookupKV_setKVgo_ne _ _ _ _ (fun h => hs h.symm)]
        simp [hs]
    · unfold innerLookup
      rw [lookupKV_setKVgo_ne _ _ _ _ (fun h => hn h.symm)]
      exact (if_neg (fun h : n = ns ∧ s = sub => hn h.1)).symm

/-- The value the loop's last qualifying entry for `(ns, sub)` writes, if any. -/
def lastNSStep (ns sub : String) (r : Option String) (kv : String × String) :
    Option String :=
  match entryNS kv with
  | some (n, s, v) => if n = ns ∧ s = sub then some v else r
  | none => r

def lastNS (env : Settings) (ns sub : String) : Option String :=
  env.foldl (lastNSStep ns sub) none

theorem foldl_lastNSStep (env : Settings) (ns sub : String) (r : Option String) :
    env.foldl (lastNSStep ns sub) r =
      match lastNS env ns sub with
      | some v => some v
      | none => r := by
  induction env generalizing r with
  | nil => simp [lastNS]
  | cons kv env' ih =>
    rw [show lastNS (kv :: env') ns sub =
        List.foldl (lastNSStep ns sub) (lastNSStep ns sub none kv) env' from rfl,
      List.foldl_cons, ih, ih (lastNSStep ns sub none kv)]
    cases hl : lastNS env' ns sub with
    | some v => rfl
    | none =>
      unfold lastNSStep
      cases he : entryNS kv with
      | none => rfl
      | some t =>
        obtain ⟨n, s, v⟩ := t
        by_cases hc : n = ns ∧ s = sub <;> simp [hc]

theorem innerLookup_parse_fold (env : Settings) (acc : NamespacedSettings)
    (ns sub : String) :
    innerLookup (env.foldl parseStep acc) ns sub =
      match lastNS env ns sub with
      | some v => some v
      | none => innerLookup acc ns sub := by
  induction env generalizing acc with
  | nil => simp [lastNS]
  | cons kv env' ih =>
    rw [List.foldl_cons, ih,
      show lastNS (kv :: env') ns sub =
        List.foldl (lastNSStep ns sub) (lastNSStep ns sub none kv) env' from rfl,
      foldl_lastNSStep]
    cases hl : lastNS env' ns sub with
    | some v => rfl
    | none =>
      rw [innerLookup_parseStep]
      unfold lastNSStep
      cases he : entryNS kv with
      | none => rfl
      | some t =>
        obtain ⟨n, s, v⟩ := t
        by_cases hc : n = ns ∧ s = sub <;> simp [hc]

theorem entryNS_eq_some (k v n s w : String)
    (h : entryNS (k, v) = some (n, s, w)) :
    w = v ∧ v ≠ "" ∧ n ≠ "" ∧ noDotStr n ∧ k = n ++ "." ++ s := by
  unfold entryNS at h
  by_cases h2 : v = ""
  · simp [h2] at h
  · simp only [if_neg h2] at h
    cases hsp : splitDot k with
    | nil => rw [hsp] at h; simp at h
    | cons nsp rest =>
      rw [hsp] at h
      by_cases hn : nsp = ""
      · simp [hn] at h
      · by_cases hr : rest = []
        · simp [hn, hr] at h
        · simp only [if_neg hn, if_neg hr, Option.some.injEq, Prod.mk.injEq] at h
          obtain ⟨rfl, rfl, rfl⟩ := h
          refine ⟨rfl, h2, hn,
            mem_splitDot_noDot k nsp (hsp ▸ List.mem_cons_self nsp rest), ?_⟩
          have hjk := joinDot_splitDot k
          rw [hsp, joinDot_cons nsp rest hr] at hjk
          exact hjk.symm

theorem entryNS_of_split (key v nsp : String) (rest : List String)
    (hsp : splitDot key = nsp :: rest) (hr : rest ≠ []) (hn : nsp ≠ "") (hv : v ≠ "") :
    entryNS (key, v) = some (nsp, joinDot rest, v) := by
  unfold entryNS
  rw [if_neg hv, hsp]
  simp [hn, hr]

theorem lastNS_mem (env : Settings) (ns sub v : String)
    (h : lastNS env ns sub = some v) :
    ∃ k, (k, v) ∈ env ∧ entryNS (k, v) = some (ns, sub, v) := by
  induction env with
  | nil => simp [lastNS] at h
  | cons kv env' ih =>
    rw [show lastNS (kv :: env') ns sub =
        List.foldl (lastNSStep ns sub) (lastNSStep ns sub none kv) env' from rfl,
      foldl_lastNSStep] at h
    cases hl : lastNS env' ns sub with
    | some w =>
      simp only [hl, Option.some.injEq] at h
      obtain ⟨k, hk, he⟩ := ih (hl.trans (by rw [h]))
      exact ⟨k, List.mem_cons.mpr (Or.inr hk), he⟩
    | none =>
      simp only [hl] at h
      unfold lastNSStep at h
      cases he : entryNS kv with
      | none => simp [he] at h
      | some t =>
        obtain ⟨n, s, w⟩ := t
        simp only [he] at h
        by_cases hc : n = ns ∧ s = sub
        · rw [if_pos hc] at h
          obtain ⟨rfl, rfl⟩ := hc
          have hv : w = v := Option.some.inj h
          have hw : w = kv.2 := (entryNS_eq_some kv.1 kv.2 n s w he).1
          rw [hw] at hv he
          refine ⟨kv.1, ?_, ?_⟩
          · rw [← hv]; exact List.mem_cons_self kv env'
          · rw [← hv]; exact he
        · rw [if_neg hc] at h
          cases h

theorem lastNS_of_mem_nodup (env : Settings) (hnd : (keysOf env).Nodup)
    (k v ns sub : String) (hm : (k, v) ∈ env)
    (he : entryNS (k, v) = some (ns, sub, v)) :
    lastNS env ns sub = some v := by
  induction env with
  | nil => simp at hm
  | cons kv env' ih =>
    rw [keysOf_cons, List.nodup_cons] at hnd
    rw [show lastNS (kv :: env') ns sub =
        List.foldl (lastNSStep ns sub) (lastNSStep ns sub none kv) env' from rfl,
      foldl_lastNSStep]
    rcases List.mem_cons.mp hm with hh | hh
    · have hnone : lastNS env' ns sub = none := by
        cases hl : lastNS env' ns sub with
        | none => rfl
        | some w =>
          exfalso
          obtain ⟨k', hk', he'⟩ := lastNS_mem env' ns sub w hl
          obtain ⟨_, _, _, _, hkey'⟩ := entryNS_eq_some k' w ns sub w he'
          obtain ⟨_, _, _, _, hkey⟩ := entryNS_eq_some k v ns sub v he
          have hkk : k' = k := by rw [hkey', hkey]
          subst hkk
          have hmem : k' ∈ keysOf env' := List.mem_map.mpr ⟨(k', w), hk', rfl⟩
          rw [← hh] at hnd
          exact hnd.1 hmem
      simp only [hnone]
      unfold lastNSStep
      rw [← hh]
      simp [he]
    · simp only [ih hnd.2 hh]
theorem keysOf_parse_noDot (env : Settings) (acc : NamespacedSettings)
    (hacc : ∀ a ∈ keysOf acc, noDotStr a) :
    ∀ a ∈ keysOf (env.foldl parseStep acc), noDotStr a := by
  induction env generalizing acc with
  | nil => simpa using hacc
  | cons kv env' ih =>
    rw [List.foldl_cons]
    refine ih (parseStep acc kv) (fun a ha => ?_)
    rw [parseStep_eq] at ha
    cases he : entryNS kv with
    | none => rw [he] at ha; exact hacc a ha
    | some t =>
      obtain ⟨n, s, v⟩ := t
      rw [he] at ha
      rcases mem_keysOf_setKVgo _ _ _ a ha with h' | h'
      · exact hacc a h'
      · subst h'
        obtain ⟨k1, v1⟩ := kv
        obtain ⟨_, _, _, hnd, _⟩ := entryNS_eq_some k1 v1 a s v he
        exact hnd

theorem keysOf_parse_nodup (env : Settings) (acc : NamespacedSettings)
    (hacc : (keysOf acc).Nodup) : (keysOf (env.foldl parseStep acc)).Nodup := by
  induction env generalizing acc with
  | nil => simpa using hacc
  | cons kv env' ih =>
    rw [List.foldl_cons]
    refine ih (parseStep acc kv) ?_
    rw [parseStep_eq]
    cases he : entryNS kv with
    | none => exact hacc
    | some t =>
      obtain ⟨n, s, v⟩ := t
      exact nodup_keysOf_setKVgo _ _ _ hacc

/-! ### Claim theorems for namespacing -/

/-- C4 counterexample: the key `"a.b"` contains a literal dot, so the claim
requires it to be assigned to namespace `"a"` under sub-key `"b"`; but its
value is the empty string, which the loop skips (`if (!value) continue`),
so the derived namespaced mapping is empty and namespace `"a"` is absent. -/
theorem parseNamespacedSettings_counterexample :
    dotSplitSpec "a.b" = some ("a", "b") ∧
    parseNamespacedSettings [("a.b", "")] = [] ∧
    lookupKV (parseNamespacedSettings [("a.b", "")]) "a" = none := by
  refine ⟨by decide, by decide, by decide⟩

/-- C4 (amended): for a flat settings object (no duplicate keys), every key
containing a literal dot whose value is non-empty and whose namespace part
(the text before the first dot) is non-empty is assigned to that namespace
under the remaining text as sub-key (further dots preserved); conversely
every entry of the namespaced mapping arises from exactly such a flat key,
so keys with no dot, keys with an empty value and keys with an empty
namespace part are excluded.  The claim's examples behave as stated. -/
theorem parseNamespacedSettings_correct (env : Settings)
    (hnd : (keysOf env).Nodup) :
    (∀ key v nsp sub, (key, v) ∈ env → v ≠ "" → nsp ≠ "" →
      dotSplitSpec key = some (nsp, sub) →
      innerLookup (parseNamespacedSettings env) nsp sub = some v) ∧
    (∀ nsp sub v, innerLookup (parseNamespacedSettings env) nsp sub = some v →
      (nsp ++ "." ++ sub, v) ∈ env ∧ v ≠ "" ∧ nsp ≠ "") ∧
    parseNamespacedSettings [("openai.key", "abc"), ("openai.model", "gpt"), ("plain", "x")] =
      [("openai", [("key", "abc"), ("model", "gpt")])] ∧
    parseNamespacedSettings [("a.b.c", "v")] = [("a", [("b.c", "v")])] := by
  refine ⟨?_, ?_, by decide, by decide⟩
  · intro key v nsp sub hmem hv hn hspec
    unfold dotSplitSpec at hspec
    cases hsp : splitDot key with
    | nil => rw [hsp] at hspec; cases hspec
    | cons nsp' rest =>
      rw [hsp] at hspec
      cases rest with
      | nil => cases hspec
      | cons r rs =>
        simp only [Option.some.injEq, Prod.mk.injEq] at hspec
        obtain ⟨rfl, rfl⟩ := hspec
        have he := entryNS_of_split key v nsp' (r :: rs) hsp (by simp) hn hv
        unfold parseNamespacedSettings
        rw [innerLookup_parse_fold]
        simp only [lastNS_of_mem_nodup env hnd key v nsp' (joinDot (r :: rs)) hmem he]
  · intro nsp sub v h
    unfold parseNamespacedSettings at h
    rw [innerLookup_parse_fold] at h
    cases hl : lastNS env nsp sub with
    | none =>
      rw [hl] at h
      simp [innerLookup] at h
    | some w =>
      rw [hl] at h
      obtain rfl : w = v := Option.some.inj h
      obtain ⟨k, hk, he⟩ := lastNS_mem env nsp sub w hl
      obtain ⟨_, hv, hn, _, hkey⟩ := entryNS_eq_some k w nsp sub w he
      exact ⟨hkey ▸ hk, hv, hn⟩

/-- C4 witness. -/
theorem parseNamespacedSettings_correct_witness :
    innerLookup (parseNamespacedSettings [("openai.key", "abc"), ("plain", "x")])
      "openai" "key" = some "abc" :=
  (parseNamespacedSettings_correct [("openai.key", "abc"), ("plain", "x")]
      (by decide)).1 "openai.key" "abc" "openai" "key" (by decide) (by decide)
      (by decide) (by decide)

/-! ### The write-back loop and dotenv loading -/

theorem applyNW_nil (env : Settings) : applyNamespacedWrites [] env = env := rfl

theorem applyNW_cons (p : String × Settings) (nsl : NamespacedSettings) (env : Settings) :
    applyNamespacedWrites (p :: nsl) env =
      applyNamespacedWrites nsl (setKVgo env (namespacedKey p.1) (jsonStringifyObj p.2)) :=
  rfl

theorem dotenvLoad_cons (kv : String × String) (vars : List (String × String))
    (env : Settings) :
    dotenvLoad (some (kv :: vars)) env =
      dotenvLoad (some vars)
        (if (lookupKV env kv.1).isSome then env else env ++ [(kv.1, kv.2)]) :=
  rfl

theorem applyNW_lookup_other (nsl : NamespacedSettings) (env : Settings) (k : String)
    (h : ∀ p ∈ nsl, k ≠ namespacedKey p.1) :
    lookupKV (applyNamespacedWrites nsl env) k = lookupKV env k := by
  induction nsl generalizing env with
  | nil => rfl
  | cons p nsl' ih =>
    rw [applyNW_cons, ih _ (fun q hq => h q (List.mem_cons.mpr (Or.inr hq))),
      lookupKV_setKVgo_ne _ _ _ _ (h p (List.mem_cons.mpr (Or.inl rfl)))]

theorem applyNW_isSome (nsl : NamespacedSettings) (env : Settings) (k : String)
    (h : (lookupKV env k).isSome = true) :
    (lookupKV (applyNamespacedWrites nsl env) k).isSome = true := by
  induction nsl generalizing env with
  | nil => exact h
  | cons p nsl' ih =>
    rw [applyNW_cons]
    exact ih _ (lookupKV_isSome_setKVgo _ _ _ _ h)

theorem applyNW_lookup_self (nsl : NamespacedSettings) (env : Settings)
    (hnd : (keysOf nsl).Nodup) (p : String × Settings) (hp : p ∈ nsl) :
    lookupKV (applyNamespacedWrites nsl env) (namespacedKey p.1) =
      some (jsonStringifyObj p.2) := by
  induction nsl generalizing env with
  | nil => simp at hp
  | cons q nsl' ih =>
    rw [keysOf_cons, List.nodup_cons] at hnd
    rw [applyNW_cons]
    rcases List.mem_cons.mp hp with hh | hh
    · subst hh
      rw [applyNW_lookup_other nsl' _ (namespacedKey p.1)
          (fun q' hq' heq =>
            hnd.1 (namespacedKey_inj _ _ heq ▸ List.mem_map.mpr ⟨q', hq', rfl⟩)),
        lookupKV_setKVgo_self]
    · exact ih _ hnd.2 hh

theorem applyNW_eq_of_lookup (nsl : NamespacedSettings) (env : Settings)
    (h : ∀ p ∈ nsl, lookupKV env (namespacedKey p.1) = some (jsonStringifyObj p.2)) :
    applyNamespacedWrites nsl env = env := by
  induction nsl generalizing env with
  | nil => rfl
  | cons p nsl' ih =>
    rw [applyNW_cons, setKVgo_self_eq _ _ _ (h p (List.mem_cons.mpr (Or.inl rfl)))]
    exact ih _ (fun q hq => h q (List.mem_cons.mpr (Or.inr hq)))

theorem dotenvLoad_isSome_mono (c : Option (List (String × String))) (env : Settings)
    (k : String) (h : (lookupKV env k).isSome = true) :
    (lookupKV (dotenvLoad c env) k).isSome = true := by
  cases c with
  | none => exact h
  | some vars =>
    induction vars generalizing env with
    | nil => exact h
    | cons kv vars' ih =>
      rw [dotenvLoad_cons]
      by_cases hp : (lookupKV env kv.1).isSome = true
      · rw [if_pos hp]
        exact ih env h
      · rw [if_neg hp]
        refine ih _ ?_
        rw [lookupKV_append]
        cases hl : lookupKV env k with
        | some w => simp
        | none => rw [hl] at h; cases h

theorem dotenvLoad_mem_isSome (vars : List (String × String)) (env : Settings) :
    ∀ kv ∈ vars, (lookupKV (dotenvLoad (some vars) env) kv.1).isSome = true := by
  induction vars generalizing env with
  | nil => simp
  | cons kv0 vars' ih =>
    intro kv hkv
    rw [dotenvLoad_cons]
    rcases List.mem_cons.mp hkv with hh | hh
    · subst hh
      by_cases hp : (lookupKV env kv.1).isSome = true
      · rw [if_pos hp]
        exact dotenvLoad_isSome_mono (some vars') env kv.1 hp
      · rw [if_neg hp]
        refine dotenvLoad_isSome_mono (some vars') _ kv.1 ?_
        rw [lookupKV_append]
        cases hl : lookupKV env kv.1 with
        | some w => simp
        | none => simp [lookupKV]
    · by_cases hp : (lookupKV env kv0.1).isSome = true
      · rw [if_pos hp]; exact ih env kv hh
      · rw [if_neg hp]; exact ih _ kv hh

theorem dotenvLoad_eq_of_isSome (vars : List (String × String)) (env : Settings)
    (h : ∀ kv ∈ vars, (lookupKV env kv.1).isSome = true) :
    dotenvLoad (some vars) env = env := by
  induction vars with
  | nil => rfl
  | cons kv vars' ih =>
    rw [dotenvLoad_cons, if_pos (h kv (List.mem_cons.mpr (Or.inl rfl)))]
    exact ih (fun q hq => h q (List.mem_cons.mpr (Or.inr hq)))

theorem keysOf_dotenvLoad_nodup (c : Option (List (String × String))) (env : Settings)
    (h : (keysOf env).Nodup) : (keysOf (dotenvLoad c env)).Nodup := by
  cases c with
  | none => exact h
  | some vars =>
    induction vars generalizing env with
    | nil => exact h
    | cons kv vars' ih =>
      rw [dotenvLoad_cons]
      by_cases hp : (lookupKV env kv.1).isSome = true
      · rw [if_pos hp]; exact ih env h
      · rw [if_neg hp]
        refine ih _ ?_
        rw [keysOf_append, List.nodup_append]
        refine ⟨h, by simp [keysOf], ?_⟩
        intro a ha hb
        simp [keysOf] at hb
        subst hb
        cases hl : lookupKV env kv.1 with
        | none => exact (lookupKV_eq_none_iff env kv.1).mp hl ha
        | some w => rw [hl] at hp; exact hp rfl

/-! ### Claim theorem for the namespace-prefix invariant -/

/-- C5: after a host-context load, every key `k` of the inner object of
`NamespacedSettings` at namespace `n` corresponds to the key `n ++ "." ++ k`
of the returned flat settings mapping, with the same value.  The
`NamespacedSettings` derived by the load is
`parseNamespacedSettings (dotenvLoad (envFileContent files cwd) env)`, and
the returned flat mapping is `loadEnvConfig false es files cwd env`. -/
theorem loadEnvConfig_namespaced_invariant (es : Settings) (files : FileSys)
    (cwd : Dir) (env : Settings) (hnd : (keysOf env).Nodup) (n k v : String)
    (m : Settings)
    (hns : lookupKV
        (parseNamespacedSettings (dotenvLoad (envFileContent files cwd) env)) n =
      some m)
    (hin : lookupKV m k = some v) :
    lookupKV (loadEnvConfig false es files cwd env) (n ++ "." ++ k) = some v := by
  have hnd1 : (keysOf (dotenvLoad (envFileContent files cwd) env)).Nodup :=
    keysOf_dotenvLoad_nodup _ env hnd
  have hinner :
      innerLookup
        (parseNamespacedSettings (dotenvLoad (envFileContent files cwd) env)) n k =
        some v := by
    unfold innerLookup
    rw [hns]
    exact hin
  unfold parseNamespacedSettings at hinner
  rw [innerLookup_parse_fold] at hinner
  cases hl : lastNS (dotenvLoad (envFileContent files cwd) env) n k with
  | none =>
    rw [hl] at hinner
    simp [innerLookup] at hinner
  | some w =>
    rw [hl] at hinner
    obtain rfl : w = v := Option.some.inj hinner
    obtain ⟨key, hkey, he⟩ := lastNS_mem _ n k w hl
    obtain ⟨_, _, _, _, hk⟩ := entryNS_eq_some key w n k w he
    have hflat : lookupKV (dotenvLoad (envFileContent files cwd) env)
        (n ++ "." ++ k) = some w :=
      lookupKV_mem_nodup _ _ _ hnd1 (hk ▸ hkey)
    show lookupKV (loadEnvConfig false es files cwd env) (n ++ "." ++ k) = some w
    unfold loadEnvConfig
    rw [if_neg (by simp)]
    show lookupKV
        (applyNamespacedWrites
          (parseNamespacedSettings (dotenvLoad (envFileContent files cwd) env))
          (dotenvLoad (envFileContent files cwd) env))
        (n ++ "." ++ k) = some w
    have hdots : ∀ p ∈ parseNamespacedSettings (dotenvLoad (envFileContent files cwd) env),
        n ++ "." ++ k ≠ namespacedKey p.1 := by
      intro p hp
      refine namespacedKey_ne_dotted n p.1 k ?_
      refine keysOf_parse_noDot (dotenvLoad (envFileContent files cwd) env) []
        (by simp [keysOf]) p.1 ?_
      exact List.mem_map.mpr ⟨p, hp, rfl⟩
    rw [applyNW_lookup_other _ _ _ hdots]
    exact hflat

/-- C5 witness. -/
theorem loadEnvConfig_namespaced_invariant_witness :
    lookupKV (loadEnvConfig false [] noFiles ["d"] [("a.b", "v")]) ("a" ++ "." ++ "b") =
      some "v" :=
  loadEnvConfig_namespaced_invariant [] noFiles ["d"] [("a.b", "v")] (by decide)
    "a" "b" "v" [("b", "v")] (by rfl) (by rfl)

/-! ### Re-running the load: idempotence -/

theorem parseStep_noDot (acc : NamespacedSettings) (k : String) (v : String)
    (hk : noDotStr k) : parseStep acc (k, v) = acc := by
  rw [parseStep_eq]
  have : entryNS (k, v) = none := by
    unfold entryNS
    by_cases hv : v = ""
    · rw [if_pos hv]
    · rw [if_neg hv, splitDot_of_noDot k hk]
      simp
  rw [this]

theorem parse_fold_setKVgo_noDot (env : Settings) (k : String) (v : String)
    (hk : noDotStr k) (acc : NamespacedSettings) :
    (setKVgo env k v).foldl parseStep acc = env.foldl parseStep acc := by
  induction env generalizing acc with
  | nil =>
    rw [setKVgo_nil, List.foldl_cons, parseStep_noDot acc k v hk]
  | cons kv env' ih =>
    obtain ⟨k1, w⟩ := kv
    by_cases h1 : k1 = k
    · subst h1
      rw [setKVgo_cons_self, List.foldl_cons, List.foldl_cons,
        parseStep_noDot acc k1 v hk, parseStep_noDot acc k1 w hk]
    · rw [setKVgo_cons_ne _ _ _ _ _ h1, List.foldl_cons, List.foldl_cons, ih]

theorem parse_applyNW (nsl : NamespacedSettings) (env : Settings)
    (h : ∀ p ∈ nsl, noDotStr p.1) :
    parseNamespacedSettings (applyNamespacedWrites nsl env) =
      parseNamespacedSettings env := by
  induction nsl generalizing env with
  | nil => rfl
  | cons p nsl' ih =>
    rw [applyNW_cons, ih _ (fun q hq => h q (List.mem_cons.mpr (Or.inr hq)))]
    unfold parseNamespacedSettings
    exact parse_fold_setKVgo_noDot env _ _
      (namespacedKey_noDot p.1 (h p (List.mem_cons.mpr (Or.inl rfl)))) []

/-- C6: invoking `loadEnvConfig` twice with the same execution context, the
same injected settings and an unchanged file system yields after the second
call exactly the mapping the first call produced (in host context the first
call's result is the new `process.env`, which is the second call's ambient
environment). -/
theorem loadEnvConfig_idempotent (browser : Bool) (environmentSettings : Settings)
    (files : FileSys) (cwd : Dir) (env : Settings) :
    loadEnvConfig browser environmentSettings files cwd
        (loadEnvConfig browser environmentSettings files cwd env) =
      loadEnvConfig browser environmentSettings files cwd env := by
  cases browser with
  | true => rfl
  | false =>
    show applyNamespacedWrites _ _ = _
    have hdot : ∀ p ∈ parseNamespacedSettings
        (dotenvLoad (envFileContent files cwd) env), noDotStr p.1 := by
      intro p hp
      exact keysOf_parse_noDot (dotenvLoad (envFileContent files cwd) env) []
        (by simp [keysOf]) p.1 (List.mem_map.mpr ⟨p, hp, rfl⟩)
    have hnsnd : (keysOf (parseNamespacedSettings
        (dotenvLoad (envFileContent files cwd) env))).Nodup :=
      keysOf_parse_nodup _ [] (by simp [keysOf])
    set env1 := dotenvLoad (envFileContent files cwd) env with henv1
    set nsl := parseNamespacedSettings env1 with hnsl
    set result1 := applyNamespacedWrites nsl env1 with hres1
    have hload1 : loadEnvConfig false environmentSettings files cwd env = result1 := rfl
    rw [hload1]
    have hstep1 : dotenvLoad (envFileContent files cwd) result1 = result1 := by
      cases hc : envFileContent files cwd with
      | none => rfl
      | some vars =>
        refine dotenvLoad_eq_of_isSome vars result1 (fun kv hkv => ?_)
        refine applyNW_isSome nsl env1 kv.1 ?_
        have hsome := dotenvLoad_mem_isSome vars env kv hkv
        rw [← hc] at hsome
        exact hsome
    have hstep2 : parseNamespacedSettings result1 = nsl := by
      rw [hres1, hnsl]
      exact parse_applyNW _ _ hdot
    have hstep3 : applyNamespacedWrites nsl result1 = result1 := by
      refine applyNW_eq_of_lookup nsl result1 (fun p hp => ?_)
      exact applyNW_lookup_self nsl env1 hnsnd p hp
    show applyNamespacedWrites
        (parseNamespacedSettings (dotenvLoad (envFileContent files cwd) result1))
        (dotenvLoad (envFileContent files cwd) result1) = result1
    rw [hstep1, hstep2, hstep3]

/-! ### Claim theorem: missing configuration file is non-fatal -/

/-- C7: in host context, when no `.env` file exists anywhere on the chain
from the starting directory up to and including the root, `loadEnvConfig`
completes normally and returns the ambient environment unchanged except for
the derived `__namespaced_` keys: the result is exactly the ambient mapping
with the namespaced groups written back, and every key that is not a derived
`__namespaced_` key of a discovered namespace keeps its ambient value. -/
theorem loadEnvConfig_missing_file (es : Settings) (files : FileSys) (cwd : Dir)
    (env : Settings) (h : ∀ a ∈ ancestorChain cwd, files a = none) :
    loadEnvConfig false es files cwd env =
      applyNamespacedWrites (parseNamespacedSettings env) env ∧
    ∀ k, (∀ p ∈ parseNamespacedSettings env, k ≠ namespacedKey p.1) →
      lookupKV (loadEnvConfig false es files cwd env) k = lookupKV env k := by
  have hfc : envFileContent files cwd = none := by
    unfold envFileContent findNearestEnvFile
    rw [if_neg (by simp), findNearestEnvFileFrom_eq_find]
    rw [List.find?_eq_none.mpr (fun a ha => by simp [h a ha])]
    exact h cwd (self_mem_ancestorChain cwd)
  have hmain : loadEnvConfig false es files cwd env =
      applyNamespacedWrites (parseNamespacedSettings env) env := by
    unfold loadEnvConfig
    rw [if_neg (by simp)]
    show applyNamespacedWrites
        (parseNamespacedSettings (dotenvLoad (envFileContent files cwd) env))
        (dotenvLoad (envFileContent files cwd) env) =
      applyNamespacedWrites (parseNamespacedSettings env) env
    rw [hfc]
    rfl
  refine ⟨hmain, fun k hk => ?_⟩
  rw [hmain, applyNW_lookup_other _ _ _ hk]

/-- C7 witness. -/
theorem loadEnvConfig_missing_file_witness :
    loadEnvConfig false [] noFiles ["d"] [("x", "1")] =
      applyNamespacedWrites (parseNamespacedSettings [("x", "1")]) [("x", "1")] :=
  (loadEnvConfig_missing_file [] noFiles ["d"] [("x", "1")] (fun _ _ => rfl)).1

/-! ### Claim theorem: configuration injection in sandboxed context -/

theorem configureSettings_fold (s acc : Settings)
    (hnd : (keysOf (acc ++ s)).Nodup) :
    s.foldl (fun acc kv => setKVgo acc kv.1 kv.2) acc = acc ++ s := by
  induction s generalizing acc with
  | nil => simp
  | cons kv s' ih =>
    rw [List.foldl_cons]
    have hmem : kv.1 ∉ keysOf acc := by
      rw [keysOf_append, List.nodup_append] at hnd
      intro hmem
      exact hnd.2.2 hmem (by simp)
    rw [setKVgo_of_not_mem acc kv.1 kv.2 hmem]
    have hnd' : (keysOf ((acc ++ [(kv.1, kv.2)]) ++ s')).Nodup := by
      rw [List.append_assoc]
      simpa using hnd
    rw [ih _ hnd', List.append_assoc]
    rfl

theorem configureSettings_eq_self (s : Settings) (hnd : (keysOf s).Nodup) :
    configureSettings s = s := by
  unfold configureSettings
  simpa using configureSettings_fold s [] (by simpa using hnd)

/-- C8: in sandboxed (browser) context, after injecting a settings object
`s` the load returns a mapping equal to `s` entry for entry (the shallow
copy preserves every key and value), and the load consults neither the file
system, nor the starting directory, nor the ambient environment — it
performs no file discovery. -/
theorem configureSettings_loadEnvConfig (s : Settings) (hnd : (keysOf s).Nodup)
    (files files' : FileSys) (cwd cwd' : Dir) (env env' : Settings) :
    (∀ k, lookupKV (loadEnvConfig true (configureSettings s) files cwd env) k =
      lookupKV s k) ∧
    loadEnvConfig true (configureSettings s) files cwd env =
      loadEnvConfig true (configureSettings s) files' cwd' env' := by
  refine ⟨fun k => ?_, rfl⟩
  show lookupKV (configureSettings s) k = lookupKV s k
  rw [configureSettings_eq_self s hnd]

/-- C8 witness. -/
theorem configureSettings_loadEnvConfig_witness :
    lookupKV (loadEnvConfig true (configureSettings [("a", "1")]) noFiles [] [])
      "a" = lookupKV [("a", "1")] "a" :=
  (configureSettings_loadEnvConfig [("a", "1")] (by decide) noFiles noFiles
    [] [] [] []).1 "a"

/-- C3 witness. -/
theorem getEnvVariable_hasEnvVariable_correct_witness :
    getEnvVariable false [] [("A", "x")] "A" (some "fallback") = some "x" :=
  (getEnvVariable_hasEnvVariable_correct false [] [("A", "x")] "A"
    (some "fallback")).1 "x" (by decide) (by decide)

/-- C1 witness. -/
theorem authMiddleware_gate_witness :
    authMiddleware (some "k") (Request.mk (some "k") [] "b") =
      GateOutcome.next (Request.mk (some "k") [] "b") :=
  (authMiddleware_gate (some "k") (Request.mk (some "k") [] "b")).1.mpr
    ⟨"k", rfl, by decide, rfl⟩
